import Mathlib

/-!
Verification development for the RSS news-aggregator pipeline
(`src/news_agent.py`).  The pure core — per-entry normalization,
time-window cutoff, by-url deduplication, keyword filtering, grouping
and summary ranking — is embedded shallowly: text is `List Char`,
timestamps are `Int` (hours on a single clock), feed entries are records
of optional fields, and each Python method becomes a Lean function with
the same control flow.
-/

namespace NewsAgg

/-- Text, modelled as a list of characters so that Python's
case-insensitive substring matching (`kw.lower() in text`) is an
executable function on lists. -/
abbrev Text := List Char

/-- Python `str.lower()`, character by character. -/
def lower (s : Text) : Text := s.map Char.toLower

/-- Boolean prefix test on character lists. -/
def isPrefixB : Text → Text → Bool
  | [], _ => true
  | _ :: _, [] => false
  | c :: cs, d :: ds => c == d && isPrefixB cs ds

/-- Python's substring containment `needle in hay`. -/
def substrB (needle : Text) : Text → Bool
  | [] => needle.isEmpty
  | c :: rest => isPrefixB needle (c :: rest) || substrB needle rest

/-- An article record, as built by `fetch_rss_feed` / `fetch_google_news`
and enriched in `fetch_all_news` (`tags`, `category`) and
`filter_by_keywords` (`matched_keywords`).  `published` is the
normalized timestamp; `search_topic` is the extra key only Google News
articles carry. -/
structure Article where
  title : Text
  url : Text
  source : Text
  published : Int
  description : Text
  tags : List Text := []
  category : Text := []
  matched_keywords : List Text := []
  search_topic : Option Text := none
  deriving DecidableEq, Repr

/-- A raw feed entry as seen through the feed-parsing library: every
field may be absent.  `published`/`updated` are the already-parsed
timestamps (`none` when the field is missing or unparseable, which the
Python code's inner `try` treats alike). -/
structure Entry where
  title : Option Text := none
  link : Option Text := none
  published : Option Int := none
  updated : Option Int := none
  summary : Option Text := none
  description : Option Text := none
  deriving DecidableEq, Repr

/-- Timestamp normalization of `fetch_rss_feed`: prefer `published`,
fall back to `updated`, fall back to the current collection time. -/
def entryPubDate (now : Int) (e : Entry) : Int :=
  match e.published with
  | some t => t
  | none =>
    match e.updated with
    | some t => t
    | none => now

/-- Description extraction of `fetch_rss_feed`:
`entry.get('summary', entry.get('description', ''))`. -/
def entryDesc (e : Entry) : Text :=
  match e.summary with
  | some s => s
  | none => e.description.getD []

/-- The per-entry loop of `fetch_rss_feed`.  The date fallback and the
strict time-window test happen before the required fields are touched;
accessing a missing `title` or `link` raises, and because the `try`
wraps the whole loop the exception aborts the source (`none`). -/
def processEntries (sourceName : Text) (now cutoff : Int) : List Entry → Option (List Article)
  | [] => some []
  | e :: rest =>
    if cutoff < entryPubDate now e then
      match e.title with
      | none => none
      | some t =>
        match e.link with
        | none => none
        | some l =>
          match processEntries sourceName now cutoff rest with
          | some arts =>
            some ({ title := t, url := l, source := sourceName,
                    published := entryPubDate now e,
                    description := entryDesc e } :: arts)
          | none => none
    else
      processEntries sourceName now cutoff rest

/-- `fetch_rss_feed`: cutoff is `now - hours_back`; a raised exception
anywhere in the loop makes the source contribute zero articles. -/
def fetchRssFeed (sourceName : Text) (now hoursBack : Int) (entries : List Entry) : List Article :=
  match processEntries sourceName now (now - hoursBack) entries with
  | some arts => arts
  | none => []

/-- One configured feed source together with the entries its fetch
returns (the external transport is a collaborator, so its result is an
input here). -/
structure FeedData where
  name : Text
  entries : List Entry
  tags : List Text := []
  category : Text := []
  deriving Repr

/-- The dict-comprehension deduplication `{a['url']: a for a in xs}`:
the key keeps its first-occurrence position, the value is the last
assignment. -/
def upsert (m : List Article) (a : Article) : List Article :=
  if m.any (fun b => b.url == a.url) then
    m.map (fun b => if b.url = a.url then a else b)
  else
    m ++ [a]

def dedupAux (m : List Article) : List Article → List Article
  | [] => m
  | a :: rest => dedupAux (upsert m a) rest

/-- `fetch_all_news`'s final step: `list({a['url']: a for a in all}.values())`. -/
def dedupByUrl (l : List Article) : List Article := dedupAux [] l

/-- `fetch_all_news`: gather per source, enrich each article with the
source's tags and category, then deduplicate by url. -/
def fetchAllNews (now hoursBack : Int) (feeds : List FeedData) : List Article :=
  dedupByUrl <| feeds.flatMap fun fd =>
    (fetchRssFeed fd.name now hoursBack fd.entries).map fun a =>
      { a with tags := fd.tags, category := fd.category }

/-- Google News timestamp normalization: `datetime(*entry.published_parsed[:6])`
inside a bare `try`, falling back to `datetime.now()`.  There is no
`updated` fallback here. -/
def googlePubDate (now : Int) (e : Entry) : Int :=
  match e.published with
  | some t => t
  | none => now

/-- The per-entry loop of one Google News topic.  A missing `title` or
`link` on an in-window entry raises; the per-topic `except` keeps the
articles appended so far, so the abort only cuts off the rest of the
topic. -/
def processGoogleEntries (topic : Text) (now cutoff : Int) : List Entry → List Article
  | [] => []
  | e :: rest =>
    if cutoff < googlePubDate now e then
      match e.title with
      | none => []
      | some t =>
        match e.link with
        | none => []
        | some l =>
          { title := t, url := l,
            source := String.toList "Google News",
            published := googlePubDate now e,
            description := e.summary.getD [],
            tags := [String.toList "google_news"],
            category := String.toList "google_news",
            search_topic := some topic } :: processGoogleEntries topic now cutoff rest
    else
      processGoogleEntries topic now cutoff rest

/-- One topic of `fetch_google_news`: at most the first 20 entries are
considered (`feed.entries[:20]`). -/
def fetchGoogleTopic (now hoursBack : Int) (topic : Text) (entries : List Entry) : List Article :=
  processGoogleEntries topic now (now - hoursBack) (entries.take 20)

/-- `fetch_google_news` over the configured topics (one entry list per
topic, as returned by the transport). -/
def fetchGoogleNews (now hoursBack : Int) (topics : List (Text × List Entry)) : List Article :=
  topics.flatMap fun p => fetchGoogleTopic now hoursBack p.1 p.2

/-- The candidate pool `run` passes to filtering:
`rss_articles + google_articles` (line 419), where only the RSS part
went through `dedupByUrl`. -/
def runCandidates (now hoursBack : Int) (feeds : List FeedData)
    (topics : List (Text × List Entry)) : List Article :=
  fetchAllNews now hoursBack feeds ++ fetchGoogleNews now hoursBack topics

/-- The text an article is matched against:
`f"{article['title']} {article['description']}".lower()`. -/
def articleText (a : Article) : Text := lower (a.title ++ [' '] ++ a.description)

/-- Whether keyword `kw` matches article text `text` (already lowered):
`kw.lower() in text`. -/
def kwMatch (kw : Text) (text : Text) : Bool := substrB (lower kw) text

/-- `filter_by_keywords`.  With an empty include list filtering is
disabled: every article passes with `matched_keywords := []` and the
exclude list is never consulted.  Otherwise an article matching any
exclude term is dropped, and an article passes iff some include term
matches, with `matched_keywords` the include terms that matched, in
configured order. -/
def filterByKeywords (keywords exclude : List Text) (articles : List Article) : List Article :=
  if keywords.isEmpty then
    articles.map fun a => { a with matched_keywords := [] }
  else
    articles.filterMap fun a =>
      let text := articleText a
      if !exclude.isEmpty && exclude.any (fun kw => kwMatch kw text) then
        none
      else if keywords.any (fun kw => kwMatch kw text) then
        some { a with matched_keywords := keywords.filter fun kw => kwMatch kw text }
      else
        none

/-- The three grouping axes of `group_articles`, each a
`defaultdict(list)` modelled as an insertion-ordered association list. -/
structure Groups where
  by_source : List (Text × List Article) := []
  by_category : List (Text × List Article) := []
  by_keyword : List (Text × List Article) := []
  deriving DecidableEq, Repr

/-- `groups[key].append(article)` on a `defaultdict(list)`. -/
def addTo (m : List (Text × List Article)) (k : Text) (a : Article) :
    List (Text × List Article) :=
  if m.any (fun p => p.1 == k) then
    m.map fun p => if p.1 = k then (p.1, p.2 ++ [a]) else p
  else
    m ++ [(k, [a])]

/-- Processing of one article inside `group_articles`: append to
`by_source[a.source]`, to `by_category[a.category]`, and to
`by_keyword[kw]` for each keyword occurrence in `matched_keywords`. -/
def groupStep (g : Groups) (a : Article) : Groups :=
  a.matched_keywords.foldl
    (fun h kw => { h with by_keyword := addTo h.by_keyword kw a })
    { g with by_source := addTo g.by_source a.source a,
             by_category := addTo g.by_category a.category a }

/-- `group_articles`. -/
def groupArticles (articles : List Article) : Groups :=
  articles.foldl groupStep {}

/-- The list of articles filed under key `k` (empty when the key is
absent), i.e. `groups[axis][k]`. -/
def valueOf (k : Text) (m : List (Text × List Article)) : List Article :=
  match m.find? (fun p => p.1 == k) with
  | some p => p.2
  | none => []

/-- Total number of article references on one axis. -/
def sumSizes (m : List (Text × List Article)) : Nat :=
  (m.map fun p => p.2.length).sum

/-- Stable insertion of a keyed count into a descending-sorted list,
mirroring Python's stable `sorted(..., key=lambda x: x[1], reverse=True)`. -/
def insertDesc (x : Text × Nat) : List (Text × Nat) → List (Text × Nat)
  | [] => [x]
  | y :: ys => if x.2 < y.2 then y :: insertDesc x ys else x :: y :: ys

/-- Stable sort by count, descending. -/
def sortDescBy : List (Text × Nat) → List (Text × Nat)
  | [] => []
  | x :: xs => insertDesc x (sortDescBy xs)

/-- The per-key counts of one axis, in insertion order:
`[(k, len(v)) for k, v in axis.items()]`. -/
def axisCounts (m : List (Text × List Article)) : List (Text × Nat) :=
  m.map fun p => (p.1, p.2.length)

/-- The `top_keywords` field of the summary document built in
`save_reports`: top 20 keywords by descending article count when
`by_keyword` is non-empty, else top 10 sources. -/
def topItems (g : Groups) : List (Text × Nat) :=
  if !g.by_keyword.isEmpty then
    (sortDescBy (axisCounts g.by_keyword)).take 20
  else
    (sortDescBy (axisCounts g.by_source)).take 10

/-- Last article in `l` whose url is `u`, the representative the dict
comprehension keeps. -/
def lastWith (u : Text) : List Article → Option Article
  | [] => none
  | a :: rest =>
    match lastWith u rest with
    | some b => some b
    | none => if a.url == u then some a else none

end NewsAgg

namespace NewsAgg

/-- Sample article: source `A`, url `u`. -/
def sampleA : Article :=
  { title := ['t'], url := ['u'], source := ['A'], published := 90, description := [] }

/-- Sample article: source `B`, same url `u` as `sampleA`. -/
def sampleB : Article :=
  { title := ['s'], url := ['u'], source := ['B'], published := 95, description := [] }

/-- Sample article: source `C`, url `v`. -/
def sampleC : Article :=
  { title := ['r'], url := ['v'], source := ['C'], published := 95, description := [] }

/-! ### Deduplication lemmas -/

theorem upsert_map_url_of_any (m : List Article) (a : Article)
    (h : m.any (fun b => b.url == a.url) = true) :
    (upsert m a).map (fun b => b.url) = m.map (fun b => b.url) := by
  simp only [upsert, h, if_true]
  rw [List.map_map]
  apply List.map_congr_left
  intro b _
  by_cases hb : b.url = a.url
  · simp [Function.comp, hb]
  · simp [Function.comp, hb]

theorem upsert_pairwise (m : List Article) (a : Article)
    (h : m.Pairwise (fun x y => x.url ≠ y.url)) :
    (upsert m a).Pairwise (fun x y => x.url ≠ y.url) := by
  cases hany : m.any (fun b => b.url == a.url) with
  | true =>
    have h1 : (m.map (fun b => b.url)).Pairwise Ne := List.pairwise_map.mpr h
    have h2 : ((upsert m a).map (fun b => b.url)).Pairwise Ne := by
      rw [upsert_map_url_of_any m a hany]; exact h1
    exact List.pairwise_map.mp h2
  | false =>
    have hne : ∀ b ∈ m, b.url ≠ a.url := by
      intro b hb
      have := List.any_eq_false.mp hany b hb
      simpa [beq_iff_eq] using this
    simp only [upsert, hany]
    rw [if_neg (by simp)]
    rw [List.pairwise_append]
    refine ⟨h, by simp, ?_⟩
    intro x hx y hy
    rw [List.mem_singleton] at hy
    subst hy
    exact hne x hx

theorem dedupAux_pairwise (l : List Article) :
    ∀ m : List Article, m.Pairwise (fun x y => x.url ≠ y.url) →
      (dedupAux m l).Pairwise (fun x y => x.url ≠ y.url) := by
  induction l with
  | nil => intro m hm; exact hm
  | cons a rest ih =>
    intro m hm
    exact ih (upsert m a) (upsert_pairwise m a hm)

theorem dedup_pairwise (l : List Article) :
    (dedupByUrl l).Pairwise (fun x y => x.url ≠ y.url) :=
  dedupAux_pairwise l [] (by simp)

theorem find_map_upsert (a : Article) :
    ∀ m : List Article, m.any (fun b => b.url == a.url) = true →
      (m.map fun b => if b.url = a.url then a else b).find?
        (fun b => b.url == a.url) = some a := by
  intro m
  induction m with
  | nil => intro h; simp at h
  | cons b rest ih =>
    intro h
    rw [List.map_cons]
    by_cases hb : b.url = a.url
    · rw [if_pos hb]
      exact List.find?_cons_of_pos _ (by simp)
    · rw [if_neg hb]
      have hb2 : (b.url == a.url) = false := beq_eq_false_iff_ne.mpr hb
      have hrest : rest.any (fun x => x.url == a.url) = true := by
        simpa [List.any_cons, hb2] using h
      rw [List.find?_cons_of_neg _ (by simp [hb])]
      exact ih hrest

theorem upsert_find_eq (m : List Article) (a : Article) :
    (upsert m a).find? (fun b => b.url == a.url) = some a := by
  cases hany : m.any (fun b => b.url == a.url) with
  | true =>
    simp only [upsert, hany, if_true]
    exact find_map_upsert a m hany
  | false =>
    simp only [upsert, hany]
    rw [if_neg (by simp)]
    rw [List.find?_append]
    have hnone : m.find? (fun b => b.url == a.url) = none :=
      List.find?_eq_none.mpr (List.any_eq_false.mp hany)
    simp [hnone]

theorem find_map_upsert_ne (a : Article) (u : Text) (h : a.url ≠ u) :
    ∀ m : List Article,
      (m.map fun b => if b.url = a.url then a else b).find? (fun b => b.url == u)
        = m.find? (fun b => b.url == u) := by
  intro m
  induction m with
  | nil => rfl
  | cons b rest ih =>
    rw [List.map_cons]
    by_cases hb : b.url = a.url
    · have hbu : b.url ≠ u := hb ▸ h
      rw [if_pos hb]
      rw [List.find?_cons_of_neg _ (by simp [h]),
        List.find?_cons_of_neg _ (by simp [hbu])]
      exact ih
    · rw [if_neg hb]
      by_cases hu : b.url = u
      · rw [List.find?_cons_of_pos _ (by simp [hu]),
          List.find?_cons_of_pos _ (by simp [hu])]
      · rw [List.find?_cons_of_neg _ (by simp [hu]),
          List.find?_cons_of_neg _ (by simp [hu])]
        exact ih

theorem upsert_find_ne (m : List Article) (a : Article) (u : Text) (h : a.url ≠ u) :
    (upsert m a).find? (fun b => b.url == u) = m.find? (fun b => b.url == u) := by
  cases hany : m.any (fun b => b.url == a.url) with
  | true =>
    simp only [upsert, hany, if_true]
    exact find_map_upsert_ne a u h m
  | false =>
    simp only [upsert, hany]
    rw [if_neg (by simp)]
    rw [List.find?_append]
    have h2 : ([a].find? (fun b => b.url == u)) = none := by
      simp [List.find?, beq_eq_false_iff_ne.mpr h]
    cases hm : m.find? (fun b => b.url == u) <;> simp [h2]

theorem dedupAux_find (u : Text) :
    ∀ (l m : List Article),
      (dedupAux m l).find? (fun b => b.url == u) =
        (match lastWith u l with
         | some b => some b
         | none => m.find? (fun b => b.url == u)) := by
  intro l
  induction l with
  | nil => intro m; simp [dedupAux, lastWith]
  | cons a rest ih =>
    intro m
    rw [show dedupAux m (a :: rest) = dedupAux (upsert m a) rest from rfl]
    rw [ih (upsert m a)]
    cases hr : lastWith u rest with
    | some b => simp [lastWith, hr]
    | none =>
      simp only [lastWith, hr]
      by_cases ha : a.url = u
      · have h1 : (a.url == u) = true := by simp [ha]
        rw [if_pos h1]
        have h2 := upsert_find_eq m a
        rw [ha] at h2
        exact h2
      · have h1 : ¬ ((a.url == u) = true) := by simp [ha]
        rw [if_neg h1]
        exact upsert_find_ne m a u ha

theorem lastWith_eq_none (u : Text) :
    ∀ l : List Article, lastWith u l = none → ∀ a ∈ l, a.url ≠ u := by
  intro l
  induction l with
  | nil => intro _ a ha; simp at ha
  | cons b rest ih =>
    intro h a ha
    cases hr : lastWith u rest with
    | some c => simp [lastWith, hr] at h
    | none =>
      simp only [lastWith, hr] at h
      rcases List.mem_cons.mp ha with rfl | hmem
      · intro hb
        rw [if_pos (by simp [hb])] at h
        exact Option.noConfusion h
      · exact ih hr a hmem

theorem lastWith_isSome (u : Text) :
    ∀ l : List Article, (∃ a ∈ l, a.url = u) → ∃ b, lastWith u l = some b := by
  intro l hex
  cases hr : lastWith u l with
  | some b => exact ⟨b, rfl⟩
  | none =>
    obtain ⟨a, ha, hau⟩ := hex
    exact absurd hau (lastWith_eq_none u l hr a ha)

theorem pairwise_find_filter (u : Text) :
    ∀ L : List Article, L.Pairwise (fun x y => x.url ≠ y.url) →
      ∀ b, L.find? (fun x => x.url == u) = some b →
        L.filter (fun x => x.url == u) = [b] := by
  intro L
  induction L with
  | nil => intro _ b h; simp [List.find?] at h
  | cons c rest ih =>
    intro hp b h
    by_cases hc : c.url = u
    · have h1 : ((fun x : Article => x.url == u) c) = true := by simp [hc]
      rw [@List.find?_cons_of_pos Article (fun x => x.url == u) c rest h1] at h
      have hcb : c = b := Option.some.inj h
      rw [@List.filter_cons_of_pos Article (fun x => x.url == u) c rest h1]
      have hrest : rest.filter (fun x => x.url == u) = [] := by
        rw [List.filter_eq_nil_iff]
        intro x hx
        have hne : c.url ≠ x.url := (List.pairwise_cons.mp hp).1 x hx
        simp only [beq_iff_eq]
        intro hxu
        exact hne (by rw [hc, hxu])
      rw [hrest, hcb]
    · have h1 : ¬ (((fun x : Article => x.url == u) c) = true) := by simp [hc]
      rw [@List.find?_cons_of_neg Article (fun x => x.url == u) c rest h1] at h
      rw [@List.filter_cons_of_neg Article (fun x => x.url == u) c rest h1]
      exact ih (List.pairwise_cons.mp hp).2 b h

/-- Claim C1 (amended): after `fetch_all_news` deduplicates, the
RSS-collected article list is unique by url; the secondary-mode Google
News articles are appended only afterwards, so the combined candidate
pool may repeat urls. -/
theorem c1_rss_unique_by_url (now hoursBack : Int) (feeds : List FeedData) :
    (fetchAllNews now hoursBack feeds).Pairwise (fun a b => a.url ≠ b.url) :=
  dedup_pairwise _

/-- Claim C6: when two or more collected articles share a url, the
deduplication step keeps exactly one article with that url, namely the
last one encountered in source-iteration order; `dedupByUrl` is a
function of the input list, so the choice is deterministic. -/
theorem c6_dedup_last_wins (l : List Article) (u : Text)
    (h : 2 ≤ l.countP (fun a => a.url == u)) :
    ∃ b, lastWith u l = some b ∧ (dedupByUrl l).filter (fun a => a.url == u) = [b] := by
  have hpos : 0 < l.countP (fun a => a.url == u) := lt_of_lt_of_le (by norm_num) h
  have hex : ∃ a ∈ l, a.url = u := by
    obtain ⟨a, ha, hau⟩ := List.countP_pos_iff.mp hpos
    exact ⟨a, ha, by simpa [beq_iff_eq] using hau⟩
  obtain ⟨b, hb⟩ := lastWith_isSome u l hex
  refine ⟨b, hb, ?_⟩
  apply pairwise_find_filter u (dedupByUrl l) (dedup_pairwise l) b
  have := dedupAux_find u l []
  rw [hb] at this
  exact this

/-- Witness for C6 at a concrete two-element duplicate list. -/
theorem c6_witness :
    2 ≤ ([sampleA, sampleB] : List Article).countP (fun a => a.url == ['u']) ∧
      ∃ b, lastWith ['u'] [sampleA, sampleB] = some b ∧
        (dedupByUrl [sampleA, sampleB]).filter (fun a => a.url == ['u']) = [b] :=
  ⟨by decide, c6_dedup_last_wins [sampleA, sampleB] ['u'] (by decide)⟩

end NewsAgg

namespace NewsAgg

/-- An RSS entry with url `u`, inside a 24-hour window at `now = 100`. -/
def rssEntryU : Entry := { title := some ['t'], link := some ['u'], published := some 90 }

/-- A Google News entry with the same url `u`, also in the window. -/
def gEntryU : Entry := { title := some ['s'], link := some ['u'], published := some 95 }

/-- A one-source feed configuration returning `rssEntryU`. -/
def feedA : FeedData := { name := ['A'], entries := [rssEntryU] }

/-- A well-formed in-window entry. -/
def goodE : Entry := { title := some ['g'], link := some ['h'], published := some 90 }

/-- An in-window entry with no `title` field: normalizing it raises. -/
def badE : Entry := { link := some ['i'], published := some 95 }

/-- Claim C1 (counterexample): with one RSS source and one Google News
topic both yielding url `u`, the candidate pool `run` passes to
filtering contains two articles with the same url — the secondary-mode
articles are appended after `fetch_all_news` has already deduplicated,
not before. -/
theorem c1_counterexample :
    ¬ (runCandidates 100 24 [feedA] [(['q'], [gEntryU])]).Pairwise
        (fun a b => a.url ≠ b.url) := by decide

/-! ### Per-source abort on malformed entries (C2) -/

theorem processEntries_abort (src : Text) (now cutoff : Int) :
    ∀ (entries : List Entry) (e : Entry), e ∈ entries →
      (e.title = none ∨ e.link = none) → cutoff < entryPubDate now e →
      processEntries src now cutoff entries = none := by
  intro entries
  induction entries with
  | nil => intro e he _ _; simp at he
  | cons a rest ih =>
    intro e he hmal hpub
    rcases List.mem_cons.mp he with rfl | hmem
    · simp only [processEntries]
      rw [if_pos hpub]
      rcases hmal with ht | hl
      · rw [ht]
      · rw [hl]
        cases ht : e.title <;> simp
    · simp only [processEntries]
      by_cases hpa : cutoff < entryPubDate now a
      · rw [if_pos hpa]
        cases ht : a.title with
        | none => rfl
        | some t =>
          cases hl : a.link with
          | none => rfl
          | some l =>
            rw [ih e hmem hmal hpub]
      · rw [if_neg hpa]
        exact ih e hmem hmal hpub

theorem processEntries_skip (src : Text) (now cutoff : Int) (e : Entry)
    (rest : List Entry) (h : ¬ cutoff < entryPubDate now e) :
    processEntries src now cutoff (e :: rest) = processEntries src now cutoff rest := by
  simp only [processEntries]
  rw [if_neg h]

/-- Claim C2 (amended): a single in-window entry lacking a required
field makes the whole source yield zero articles — the exception is
caught only at source level, so the entry is not skipped in isolation;
an out-of-window malformed entry, by contrast, is skipped before its
fields are touched and the rest of the source is processed. -/
theorem c2_amended (src : Text) (now hoursBack : Int) :
    (∀ (entries : List Entry) (e : Entry), e ∈ entries →
      (e.title = none ∨ e.link = none) → now - hoursBack < entryPubDate now e →
      fetchRssFeed src now hoursBack entries = []) ∧
    (∀ (e : Entry) (rest : List Entry), entryPubDate now e ≤ now - hoursBack →
      fetchRssFeed src now hoursBack (e :: rest) = fetchRssFeed src now hoursBack rest) := by
  constructor
  · intro entries e he hmal hpub
    unfold fetchRssFeed
    rw [processEntries_abort src now (now - hoursBack) entries e he hmal hpub]
  · intro e rest hpub
    unfold fetchRssFeed
    rw [processEntries_skip src now (now - hoursBack) e rest (not_lt.mpr hpub)]

/-- Witness for C2 (amended) on concrete entries. -/
theorem c2_amended_witness :
    fetchRssFeed ['S'] 100 24 [goodE, badE] = [] :=
  (c2_amended ['S'] 100 24).1 [goodE, badE] badE (by decide) (by decide) (by decide)

/-- Claim C2 (counterexample): with a good entry followed by an
in-window entry lacking `title`, the source returns no articles at all,
although the good entry alone would have been collected — the remaining
entries of the source are not preserved. -/
theorem c2_counterexample :
    fetchRssFeed ['S'] 100 24 [goodE, badE] = [] ∧
      fetchRssFeed ['S'] 100 24 [goodE] ≠ [] := by decide

/-! ### Strict time window (C7) -/

theorem processEntries_window (src : Text) (now cutoff : Int) :
    ∀ (entries : List Entry) (res : List Article),
      processEntries src now cutoff entries = some res →
      ∀ a ∈ res, cutoff < a.published := by
  intro entries
  induction entries with
  | nil =>
    intro res h a ha
    simp only [processEntries, Option.some.injEq] at h
    subst h
    simp at ha
  | cons e rest ih =>
    intro res h a ha
    simp only [processEntries] at h
    by_cases hpub : cutoff < entryPubDate now e
    · rw [if_pos hpub] at h
      cases ht : e.title with
      | none => rw [ht] at h; exact Option.noConfusion h
      | some t =>
        rw [ht] at h
        cases hl : e.link with
        | none => rw [hl] at h; exact Option.noConfusion h
        | some l =>
          rw [hl] at h
          cases hr : processEntries src now cutoff rest with
          | none => rw [hr] at h; exact Option.noConfusion h
          | some arts =>
            rw [hr] at h
            have hres := Option.some.inj h
            subst hres
            rcases List.mem_cons.mp ha with rfl | hmem
            · exact hpub
            · exact ih arts hr a hmem
    · rw [if_neg hpub] at h
      exact ih res h a ha

/-- Claim C7: no article returned by `fetch_rss_feed` has a normalized
published time at or before `now - hours_back`; a single well-formed
entry passes the window exactly when its effective publication time is
strictly after the cutoff, and yields nothing otherwise. -/
theorem c7_time_window (src : Text) (now hoursBack : Int) :
    (∀ (entries : List Entry), ∀ a ∈ fetchRssFeed src now hoursBack entries,
      now - hoursBack < a.published) ∧
    (∀ (e : Entry) (t l : Text), e.title = some t → e.link = some l →
      (entryPubDate now e ≤ now - hoursBack → fetchRssFeed src now hoursBack [e] = []) ∧
      (now - hoursBack < entryPubDate now e →
        fetchRssFeed src now hoursBack [e] =
          [{ title := t, url := l, source := src, published := entryPubDate now e,
             description := entryDesc e }])) := by
  constructor
  · intro entries a ha
    unfold fetchRssFeed at ha
    cases hr : processEntries src now (now - hoursBack) entries with
    | none => rw [hr] at ha; simp at ha
    | some arts =>
      rw [hr] at ha
      exact processEntries_window src now (now - hoursBack) entries arts hr a ha
  · intro e t l ht hl
    constructor
    · intro hle
      unfold fetchRssFeed
      rw [processEntries_skip src now (now - hoursBack) e [] (not_lt.mpr hle)]
      rfl
    · intro hlt
      unfold fetchRssFeed
      simp only [processEntries]
      rw [if_pos hlt, ht, hl]

/-- Witness for C7 at a concrete entry and cutoff. -/
theorem c7_witness :
    fetchRssFeed ['S'] 100 24 [goodE] =
      [{ title := ['g'], url := ['h'], source := ['S'], published := 90,
         description := [] }] := by
  have h := ((c7_time_window ['S'] 100 24).2 goodE ['g'] ['h'] (by decide) (by decide)).2
    (by decide)
  simpa using h

end NewsAgg

namespace NewsAgg

/-- A well-formed entry carrying only an `updated` timestamp. -/
def updOnlyE : Entry := { title := some ['x'], link := some ['y'], updated := some 50 }

/-- Claim C5 (counterexample): an entry with no `published` timestamp
but an old `updated` one is dropped by the primary collection (which
falls back to `updated = 50`, at or before the cutoff `76`), yet kept
by the secondary Google News collection (which ignores `updated` and
falls back to the collection time `100`) — the two normalization
policies are not the same. -/
theorem c5_counterexample :
    fetchRssFeed ['S'] 100 24 [updOnlyE] = [] ∧
      fetchGoogleTopic 100 24 ['q'] [updOnlyE] ≠ [] := by decide

theorem processGoogleEntries_window (topic : Text) (now cutoff : Int) :
    ∀ entries : List Entry, ∀ a ∈ processGoogleEntries topic now cutoff entries,
      cutoff < a.published := by
  intro entries
  induction entries with
  | nil => intro a ha; simp [processGoogleEntries] at ha
  | cons e rest ih =>
    intro a ha
    simp only [processGoogleEntries] at ha
    by_cases hpub : cutoff < googlePubDate now e
    · rw [if_pos hpub] at ha
      cases ht : e.title with
      | none => rw [ht] at ha; simp at ha
      | some t =>
        rw [ht] at ha
        cases hl : e.link with
        | none => rw [hl] at ha; simp at ha
        | some l =>
          rw [hl] at ha
          rcases List.mem_cons.mp ha with rfl | hmem
          · exact hpub
          · exact ih a hmem
    · rw [if_neg hpub] at ha
      exact ih a ha

theorem processGoogleEntries_length (topic : Text) (now cutoff : Int) :
    ∀ entries : List Entry,
      (processGoogleEntries topic now cutoff entries).length ≤ entries.length := by
  intro entries
  induction entries with
  | nil => simp [processGoogleEntries]
  | cons e rest ih =>
    simp only [processGoogleEntries]
    by_cases hpub : cutoff < googlePubDate now e
    · rw [if_pos hpub]
      cases e.title with
      | none => simp
      | some t =>
        cases e.link with
        | none => simp
        | some l =>
          simpa using Nat.succ_le_succ ih
    · rw [if_neg hpub]
      exact le_trans ih (Nat.le_succ _)

/-- Claim C5 (amended): the secondary collection prefers the
`published` timestamp but falls back directly to the current
collection time, ignoring `updated`; it applies the same strict-after
cutoff as the primary collection, and takes at most 20 entries per
topic. -/
theorem c5_amended (now hoursBack : Int) (topic : Text) (entries : List Entry) :
    (∀ (e : Entry) (t : Int), e.published = some t → googlePubDate now e = t) ∧
    (∀ e : Entry, e.published = none → googlePubDate now e = now) ∧
    (∀ a ∈ fetchGoogleTopic now hoursBack topic entries, now - hoursBack < a.published) ∧
    (fetchGoogleTopic now hoursBack topic entries).length ≤ 20 := by
  refine ⟨?_, ?_, ?_, ?_⟩
  · intro e t ht
    unfold googlePubDate
    rw [ht]
  · intro e ht
    unfold googlePubDate
    rw [ht]
  · intro a ha
    exact processGoogleEntries_window topic now (now - hoursBack) (entries.take 20) a ha
  · exact le_trans (processGoogleEntries_length topic now (now - hoursBack) (entries.take 20))
      (List.length_take_le 20 entries)

/-- Witness for C5 (amended) on the concrete `updated`-only entry. -/
theorem c5_amended_witness :
    googlePubDate 100 updOnlyE = 100 ∧
      (fetchGoogleTopic 100 24 ['q'] [updOnlyE]).length ≤ 20 :=
  ⟨(c5_amended 100 24 ['q'] [updOnlyE]).2.1 updOnlyE (by decide),
   (c5_amended 100 24 ['q'] [updOnlyE]).2.2.2⟩

end NewsAgg

namespace NewsAgg

/-- An article whose text contains the exclude term `ad`. -/
def adArticle : Article :=
  { title := ['a','d'], url := ['w'], source := ['A'], published := 90, description := [] }

/-- An article whose text contains the include term `ai`. -/
def aiArticle : Article :=
  { title := ['a','i'], url := ['z'], source := ['A'], published := 90, description := [] }

/-- `aiArticle` as annotated by the filter. -/
def aiMatched : Article := { aiArticle with matched_keywords := [['a','i']] }

/-! ### Keyword filter lemmas (C3, C8, C10) -/

theorem articleText_update (a : Article) (x : List Text) :
    articleText { a with matched_keywords := x } = articleText a := rfl

theorem mem_filterByKeywords (keywords exclude : List Text) (articles : List Article)
    (hk : keywords ≠ []) (b : Article)
    (hb : b ∈ filterByKeywords keywords exclude articles) :
    ∃ a ∈ articles,
      b = { a with matched_keywords := keywords.filter fun kw => kwMatch kw (articleText a) } ∧
      (!exclude.isEmpty && exclude.any fun kw => kwMatch kw (articleText a)) = false ∧
      (keywords.any fun kw => kwMatch kw (articleText a)) = true := by
  have hke : keywords.isEmpty = false := List.isEmpty_eq_false.mpr hk
  unfold filterByKeywords at hb
  rw [if_neg (show ¬ (keywords.isEmpty = true) by simp [hke])] at hb
  obtain ⟨a, ha, hfa⟩ := List.mem_filterMap.mp hb
  by_cases h1 : (!exclude.isEmpty && exclude.any fun kw => kwMatch kw (articleText a)) = true
  · rw [if_pos h1] at hfa
    exact absurd hfa (by simp)
  · rw [if_neg h1] at hfa
    by_cases h2 : (keywords.any fun kw => kwMatch kw (articleText a)) = true
    · rw [if_pos h2] at hfa
      exact ⟨a, ha, (Option.some.inj hfa).symm, by simpa using h1, h2⟩
    · rw [if_neg h2] at hfa
      exact absurd hfa (by simp)

/-- Claim C3 (amended): when the include list is non-empty, no article
matching any exclude term survives the filter — in particular an
article matching both an include and an exclude term is dropped; but
when the include list is empty the filter is disabled entirely and the
exclude list is never consulted, so every article passes. -/
theorem c3_amended (keywords exclude : List Text) (articles : List Article)
    (hk : keywords ≠ []) :
    ∀ b ∈ filterByKeywords keywords exclude articles,
      (exclude.any fun kw => kwMatch kw (articleText b)) = false := by
  intro b hb
  obtain ⟨a, _, rfl, hex, _⟩ := mem_filterByKeywords keywords exclude articles hk b hb
  rw [articleText_update]
  rcases Bool.and_eq_false_iff.mp hex with hne | hany
  · have hempty : exclude = [] := List.isEmpty_iff.mp (by simpa using hne)
    subst hempty
    rfl
  · exact hany

/-- Claim C3 (counterexample): with an empty include list, an article
whose text contains an exclude term is returned anyway — the early
`if not keywords` return skips the exclude check, so exclusion is not
unconditional. -/
theorem c3_counterexample :
    filterByKeywords [] [['a','d']] [adArticle] = [adArticle] ∧
      kwMatch ['a','d'] (articleText adArticle) = true := by decide

/-- Witness for C3 (amended): a concrete surviving article matches no
exclude term. -/
theorem c3_amended_witness :
    (List.any [['a','d']] fun kw => kwMatch kw (articleText aiMatched)) = false :=
  c3_amended [['a','i']] [['a','d']] [aiArticle] (by decide) aiMatched (by decide)

/-- Claim C8: with a non-empty include list, every article the filter
returns matches at least one include term (case-insensitive substring
of the space-joined title-and-description text), and its
`matched_keywords` is exactly the sublist of include terms that
matched, in configured include-list order. -/
theorem c8_include_matching (keywords exclude : List Text) (articles : List Article)
    (hk : keywords ≠ []) :
    ∀ b ∈ filterByKeywords keywords exclude articles,
      (keywords.any fun kw => kwMatch kw (articleText b)) = true ∧
      b.matched_keywords = keywords.filter fun kw => kwMatch kw (articleText b) := by
  intro b hb
  obtain ⟨a, _, rfl, _, hany⟩ := mem_filterByKeywords keywords exclude articles hk b hb
  rw [articleText_update]
  exact ⟨hany, rfl⟩

/-- Witness for C8 on a concrete article and include list. -/
theorem c8_witness :
    (List.any [['a','i']] fun kw => kwMatch kw (articleText aiMatched)) = true ∧
      aiMatched.matched_keywords =
        List.filter (fun kw => kwMatch kw (articleText aiMatched)) [['a','i']] :=
  c8_include_matching [['a','i']] [] [aiArticle] (by decide) aiMatched (by decide)

/-- Claim C10: every article the filter returns is one of the input
articles with all fields except `matched_keywords` unchanged — the
filter only writes the `matched_keywords` annotation. -/
theorem c10_frame (keywords exclude : List Text) (articles : List Article) :
    ∀ b ∈ filterByKeywords keywords exclude articles,
      ∃ a ∈ articles, b.title = a.title ∧ b.url = a.url ∧ b.source = a.source ∧
        b.published = a.published ∧ b.description = a.description ∧
        b.tags = a.tags ∧ b.category = a.category ∧ b.search_topic = a.search_topic := by
  intro b hb
  by_cases hk : keywords = []
  · subst hk
    unfold filterByKeywords at hb
    rw [if_pos (show (List.isEmpty ([] : List Text)) = true from rfl)] at hb
    obtain ⟨a, ha, rfl⟩ := List.mem_map.mp hb
    exact ⟨a, ha, rfl, rfl, rfl, rfl, rfl, rfl, rfl, rfl⟩
  · obtain ⟨a, ha, rfl, _, _⟩ := mem_filterByKeywords keywords exclude articles hk b hb
    exact ⟨a, ha, rfl, rfl, rfl, rfl, rfl, rfl, rfl, rfl⟩

/-- Witness for C10 on a concrete filter run. -/
theorem c10_witness :
    ∃ a ∈ [aiArticle], aiMatched.title = a.title ∧ aiMatched.url = a.url ∧
      aiMatched.source = a.source ∧ aiMatched.published = a.published ∧
      aiMatched.description = a.description ∧ aiMatched.tags = a.tags ∧
      aiMatched.category = a.category ∧ aiMatched.search_topic = a.search_topic :=
  c10_frame [['a','i']] [] [aiArticle] aiMatched (by decide)

end NewsAgg

namespace NewsAgg

/-! ### Grouping lemmas (C9) -/

/-- Group keys are pairwise distinct (the dict invariant of
`defaultdict`). -/
def keysNodup (m : List (Text × List Article)) : Prop :=
  m.Pairwise (fun p q => p.1 ≠ q.1)

theorem map_addTo_id (k : Text) (a : Article) :
    ∀ m : List (Text × List Article), (∀ p ∈ m, p.1 ≠ k) →
      (m.map fun p => if p.1 = k then (p.1, p.2 ++ [a]) else p) = m := by
  intro m
  induction m with
  | nil => intro _; rfl
  | cons p rest ih =>
    intro h
    rw [List.map_cons, if_neg (h p (List.mem_cons_self p rest)), ih]
    intro q hq
    exact h q (List.mem_cons_of_mem p hq)

theorem sumSizes_cons (p : Text × List Article) (m : List (Text × List Article)) :
    sumSizes (p :: m) = p.2.length + sumSizes m := by
  simp [sumSizes]

theorem sumSizes_append_single (m : List (Text × List Article)) (k : Text) (a : Article) :
    sumSizes (m ++ [(k, [a])]) = sumSizes m + 1 := by
  simp [sumSizes]

theorem addTo_fst (m : List (Text × List Article)) (k : Text) (a : Article)
    (h : m.any (fun p => p.1 == k) = true) :
    (addTo m k a).map Prod.fst = m.map Prod.fst := by
  simp only [addTo, h, if_true]
  rw [List.map_map]
  apply List.map_congr_left
  intro p _
  by_cases hp : p.1 = k
  · simp [Function.comp, hp]
  · simp [Function.comp, hp]

theorem addTo_keysNodup (m : List (Text × List Article)) (k : Text) (a : Article)
    (h : keysNodup m) : keysNodup (addTo m k a) := by
  cases hany : m.any (fun p => p.1 == k) with
  | true =>
    have h1 : (m.map Prod.fst).Pairwise Ne := List.pairwise_map.mpr h
    have h2 : ((addTo m k a).map Prod.fst).Pairwise Ne := by
      rw [addTo_fst m k a hany]; exact h1
    exact List.pairwise_map.mp h2
  | false =>
    have hne : ∀ p ∈ m, p.1 ≠ k := by
      intro p hp
      have := List.any_eq_false.mp hany p hp
      simpa [beq_iff_eq] using this
    unfold keysNodup addTo
    rw [hany]
    rw [if_neg (by simp)]
    rw [List.pairwise_append]
    refine ⟨h, by simp, ?_⟩
    intro p hp q hq
    rw [List.mem_singleton] at hq
    subst hq
    exact hne p hp

theorem sumSizes_map_addTo (k : Text) (a : Article) :
    ∀ m : List (Text × List Article), keysNodup m →
      m.any (fun p => p.1 == k) = true →
      sumSizes (m.map fun p => if p.1 = k then (p.1, p.2 ++ [a]) else p)
        = sumSizes m + 1 := by
  intro m
  induction m with
  | nil => intro _ h; simp at h
  | cons p rest ih =>
    intro hnd hany
    rw [List.map_cons]
    by_cases hp : p.1 = k
    · rw [if_pos hp]
      have hrest : ∀ q ∈ rest, q.1 ≠ k := by
        intro q hq
        have := (List.pairwise_cons.mp hnd).1 q hq
        rw [hp] at this
        exact (Ne.symm this)
      rw [map_addTo_id k a rest hrest]
      rw [sumSizes_cons, sumSizes_cons]
      simp only [List.length_append, List.length_singleton]
      omega
    · rw [if_neg hp]
      have hp2 : (p.1 == k) = false := beq_eq_false_iff_ne.mpr hp
      have hrany : rest.any (fun q => q.1 == k) = true := by
        simpa [List.any_cons, hp2] using hany
      rw [sumSizes_cons, sumSizes_cons, ih (List.pairwise_cons.mp hnd).2 hrany]
      omega

theorem addTo_sumSizes (m : List (Text × List Article)) (k : Text) (a : Article)
    (h : keysNodup m) : sumSizes (addTo m k a) = sumSizes m + 1 := by
  cases hany : m.any (fun p => p.1 == k) with
  | true =>
    simp only [addTo, hany, if_true]
    exact sumSizes_map_addTo k a m h hany
  | false =>
    simp only [addTo, hany]
    rw [if_neg (by simp)]
    exact sumSizes_append_single m k a

end NewsAgg

namespace NewsAgg

theorem find_map_addTo_eq (k : Text) (a : Article) :
    ∀ m : List (Text × List Article),
      ((m.map fun p => if p.1 = k then (p.1, p.2 ++ [a]) else p).find?
          fun p => p.1 == k)
        = (m.find? fun p => p.1 == k).map (fun q => (q.1, q.2 ++ [a])) := by
  intro m
  induction m with
  | nil => rfl
  | cons p rest ih =>
    rw [List.map_cons]
    by_cases hp : p.1 = k
    · rw [if_pos hp]
      rw [@List.find?_cons_of_pos (Text × List Article) (fun q => q.1 == k) _ _ (by simp [hp]),
        @List.find?_cons_of_pos (Text × List Article) (fun q => q.1 == k) _ _ (by simp [hp])]
      rfl
    · rw [if_neg hp]
      rw [@List.find?_cons_of_neg (Text × List Article) (fun q => q.1 == k) _ _ (by simp [hp]),
        @List.find?_cons_of_neg (Text × List Article) (fun q => q.1 == k) _ _ (by simp [hp])]
      exact ih

theorem find_map_addTo_ne (k k' : Text) (a : Article) (h : k' ≠ k) :
    ∀ m : List (Text × List Article),
      ((m.map fun p => if p.1 = k then (p.1, p.2 ++ [a]) else p).find?
          fun p => p.1 == k')
        = m.find? fun p => p.1 == k' := by
  intro m
  induction m with
  | nil => rfl
  | cons p rest ih =>
    rw [List.map_cons]
    by_cases hp : p.1 = k
    · have hp2 : p.1 ≠ k' := hp ▸ (Ne.symm h)
      rw [if_pos hp]
      rw [@List.find?_cons_of_neg (Text × List Article) (fun q => q.1 == k') _ _ (by simp [hp2]),
        @List.find?_cons_of_neg (Text × List Article) (fun q => q.1 == k') _ _ (by simp [hp2])]
      exact ih
    · rw [if_neg hp]
      by_cases hq : p.1 = k'
      · rw [@List.find?_cons_of_pos (Text × List Article) (fun q => q.1 == k') _ _ (by simp [hq]),
          @List.find?_cons_of_pos (Text × List Article) (fun q => q.1 == k') _ _ (by simp [hq])]
      · rw [@List.find?_cons_of_neg (Text × List Article) (fun q => q.1 == k') _ _ (by simp [hq]),
          @List.find?_cons_of_neg (Text × List Article) (fun q => q.1 == k') _ _ (by simp [hq])]
        exact ih

theorem valueOf_addTo_eq (m : List (Text × List Article)) (k : Text) (a : Article) :
    valueOf k (addTo m k a) = valueOf k m ++ [a] := by
  cases hany : m.any (fun p => p.1 == k) with
  | true =>
    unfold valueOf
    simp only [addTo, hany, if_true]
    rw [find_map_addTo_eq k a m]
    cases hf : m.find? (fun p => p.1 == k) with
    | none =>
      obtain ⟨p, hp, hpk⟩ := List.any_eq_true.mp hany
      exact absurd hpk (List.find?_eq_none.mp hf p hp)
    | some q => rfl
  | false =>
    unfold valueOf
    simp only [addTo, hany]
    rw [if_neg (by simp)]
    have hnone : m.find? (fun p => p.1 == k) = none :=
      List.find?_eq_none.mpr (List.any_eq_false.mp hany)
    rw [List.find?_append, hnone]
    have h2 : (([(k, [a])] : List (Text × List Article)).find? fun p => p.1 == k)
        = some (k, [a]) :=
      List.find?_cons_of_pos _ (by simp)
    rw [h2]
    rfl

theorem valueOf_addTo_ne (m : List (Text × List Article)) (k k' : Text) (a : Article)
    (h : k' ≠ k) : valueOf k' (addTo m k a) = valueOf k' m := by
  cases hany : m.any (fun p => p.1 == k) with
  | true =>
    unfold valueOf
    simp only [addTo, hany, if_true]
    rw [find_map_addTo_ne k k' a h m]
  | false =>
    unfold valueOf
    simp only [addTo, hany]
    rw [if_neg (by simp)]
    rw [List.find?_append]
    have h2 : (([(k, [a])] : List (Text × List Article)).find? fun p => p.1 == k')
        = none := by
      rw [List.find?_eq_none]
      intro p hp
      rw [List.mem_singleton] at hp
      subst hp
      simp [Ne.symm h]
    rw [h2]
    cases hm : m.find? (fun p => p.1 == k') <;> rfl

theorem kwfold_by_source (a : Article) :
    ∀ (kws : List Text) (g : Groups),
      (kws.foldl (fun h kw => { h with by_keyword := addTo h.by_keyword kw a }) g).by_source
        = g.by_source := by
  intro kws
  induction kws with
  | nil => intro g; rfl
  | cons kw rest ih => intro g; rw [List.foldl_cons]; exact ih _

theorem kwfold_by_category (a : Article) :
    ∀ (kws : List Text) (g : Groups),
      (kws.foldl (fun h kw => { h with by_keyword := addTo h.by_keyword kw a }) g).by_category
        = g.by_category := by
  intro kws
  induction kws with
  | nil => intro g; rfl
  | cons kw rest ih => intro g; rw [List.foldl_cons]; exact ih _

theorem kwfold_by_keyword (a : Article) :
    ∀ (kws : List Text) (g : Groups),
      (kws.foldl (fun h kw => { h with by_keyword := addTo h.by_keyword kw a }) g).by_keyword
        = kws.foldl (fun m kw => addTo m kw a) g.by_keyword := by
  intro kws
  induction kws with
  | nil => intro g; rfl
  | cons kw rest ih =>
    intro g
    rw [List.foldl_cons, List.foldl_cons]
    exact ih _

theorem groupStep_by_source (g : Groups) (a : Article) :
    (groupStep g a).by_source = addTo g.by_source a.source a := by
  unfold groupStep
  rw [kwfold_by_source]

theorem groupStep_by_category (g : Groups) (a : Article) :
    (groupStep g a).by_category = addTo g.by_category a.category a := by
  unfold groupStep
  rw [kwfold_by_category]

theorem groupStep_by_keyword (g : Groups) (a : Article) :
    (groupStep g a).by_keyword
      = a.matched_keywords.foldl (fun m kw => addTo m kw a) g.by_keyword := by
  unfold groupStep
  rw [kwfold_by_keyword]

theorem kwfold_assoc_nodup (a : Article) :
    ∀ (kws : List Text) (m : List (Text × List Article)), keysNodup m →
      keysNodup (kws.foldl (fun m kw => addTo m kw a) m) := by
  intro kws
  induction kws with
  | nil => intro m hm; exact hm
  | cons kw rest ih =>
    intro m hm
    rw [List.foldl_cons]
    exact ih _ (addTo_keysNodup m kw a hm)

theorem kwfold_assoc_sum (a : Article) :
    ∀ (kws : List Text) (m : List (Text × List Article)), keysNodup m →
      sumSizes (kws.foldl (fun m kw => addTo m kw a) m) = sumSizes m + kws.length := by
  intro kws
  induction kws with
  | nil => intro m _; simp
  | cons kw rest ih =>
    intro m hm
    rw [List.foldl_cons]
    rw [ih _ (addTo_keysNodup m kw a hm), addTo_sumSizes m kw a hm]
    simp only [List.length_cons]
    omega

theorem kwfold_valueOf (a : Article) (k : Text) :
    ∀ (kws : List Text) (m : List (Text × List Article)),
      valueOf k (kws.foldl (fun m kw => addTo m kw a) m)
        = valueOf k m ++ List.replicate (kws.count k) a := by
  intro kws
  induction kws with
  | nil => intro m; simp
  | cons kw rest ih =>
    intro m
    rw [List.foldl_cons, ih _]
    by_cases hkw : kw = k
    · subst hkw
      rw [valueOf_addTo_eq]
      have hc : (kw :: rest).count kw = rest.count kw + 1 := by
        simp [List.count_cons]
      rw [hc, List.replicate_succ, List.append_assoc]
      rfl
    · rw [valueOf_addTo_ne m kw k a (Ne.symm hkw)]
      have hc : (kw :: rest).count k = rest.count k := by
        simp [List.count_cons, hkw]
      rw [hc]

end NewsAgg

namespace NewsAgg

theorem foldl_groupStep_sums :
    ∀ (A : List Article) (g : Groups),
      keysNodup g.by_source → keysNodup g.by_category → keysNodup g.by_keyword →
      (keysNodup (A.foldl groupStep g).by_source ∧
       keysNodup (A.foldl groupStep g).by_category ∧
       keysNodup (A.foldl groupStep g).by_keyword) ∧
      sumSizes (A.foldl groupStep g).by_source = sumSizes g.by_source + A.length ∧
      sumSizes (A.foldl groupStep g).by_category = sumSizes g.by_category + A.length ∧
      sumSizes (A.foldl groupStep g).by_keyword
        = sumSizes g.by_keyword + (A.map fun a => a.matched_keywords.length).sum := by
  intro A
  induction A with
  | nil => intro g h1 h2 h3; exact ⟨⟨h1, h2, h3⟩, by simp, by simp, by simp⟩
  | cons a A2 ih =>
    intro g h1 h2 h3
    rw [List.foldl_cons]
    have hs1 : keysNodup (groupStep g a).by_source := by
      rw [groupStep_by_source]; exact addTo_keysNodup _ _ _ h1
    have hs2 : keysNodup (groupStep g a).by_category := by
      rw [groupStep_by_category]; exact addTo_keysNodup _ _ _ h2
    have hs3 : keysNodup (groupStep g a).by_keyword := by
      rw [groupStep_by_keyword]; exact kwfold_assoc_nodup a _ _ h3
    obtain ⟨hnd, e1, e2, e3⟩ := ih (groupStep g a) hs1 hs2 hs3
    refine ⟨hnd, ?_, ?_, ?_⟩
    · rw [e1, groupStep_by_source, addTo_sumSizes _ _ _ h1]
      simp only [List.length_cons]
      omega
    · rw [e2, groupStep_by_category, addTo_sumSizes _ _ _ h2]
      simp only [List.length_cons]
      omega
    · rw [e3, groupStep_by_keyword, kwfold_assoc_sum a _ _ h3]
      simp only [List.map_cons, List.sum_cons]
      omega

theorem groupArticles_by_keyword_valueOf (k : Text) :
    ∀ (A : List Article) (g : Groups),
      valueOf k (A.foldl groupStep g).by_keyword
        = valueOf k g.by_keyword
            ++ A.flatMap (fun a => List.replicate (a.matched_keywords.count k) a) := by
  intro A
  induction A with
  | nil => intro g; simp
  | cons a A2 ih =>
    intro g
    rw [List.foldl_cons, ih (groupStep g a), groupStep_by_keyword, kwfold_valueOf]
    rw [List.flatMap_cons, List.append_assoc]

/-- Claim C9 (amended): grouping places every filtered article exactly
once in `by_source` and exactly once in `by_category` — the sums of
group sizes on both axes equal the number of articles; and on the
`by_keyword` axis an article is filed under key `k` once per
OCCURRENCE of `k` in its `matched_keywords` (so once per distinct
keyword only when `matched_keywords` has no duplicates). -/
theorem c9_amended (A : List Article) :
    sumSizes (groupArticles A).by_source = A.length ∧
    sumSizes (groupArticles A).by_category = A.length ∧
    ∀ k : Text, valueOf k (groupArticles A).by_keyword
      = A.flatMap fun a => List.replicate (a.matched_keywords.count k) a := by
  have h := foldl_groupStep_sums A {} List.Pairwise.nil List.Pairwise.nil List.Pairwise.nil
  refine ⟨?_, ?_, ?_⟩
  · have := h.2.1
    simpa [groupArticles, sumSizes] using this
  · have := h.2.2.1
    simpa [groupArticles, sumSizes] using this
  · intro k
    have := groupArticles_by_keyword_valueOf k A {}
    simpa [groupArticles, valueOf] using this

/-- `aiArticle` as annotated by a filter run whose configured include
list contains the term `ai` twice. -/
def aiDouble : Article := { aiArticle with matched_keywords := [['a','i'], ['a','i']] }

/-- Claim C9 (counterexample): when the configured include list repeats
a term, the filter records it twice in `matched_keywords`, and grouping
then files the article TWICE under that keyword — not once per distinct
keyword as claimed. -/
theorem c9_counterexample :
    filterByKeywords [['a','i'], ['a','i']] [] [aiArticle] = [aiDouble] ∧
      valueOf ['a','i'] (groupArticles [aiDouble]).by_keyword = [aiDouble, aiDouble] := by
  decide

end NewsAgg

namespace NewsAgg

/-! ### Summary ranking lemmas (C4) -/

theorem insertDesc_perm (x : Text × Nat) :
    ∀ l : List (Text × Nat), (insertDesc x l).Perm (x :: l) := by
  intro l
  induction l with
  | nil => exact List.Perm.refl _
  | cons y ys ih =>
    simp only [insertDesc]
    by_cases hxy : x.2 < y.2
    · rw [if_pos hxy]
      exact (List.Perm.cons y ih).trans (List.Perm.swap x y ys)
    · rw [if_neg hxy]

theorem insertDesc_sorted (x : Text × Nat) :
    ∀ l : List (Text × Nat), l.Pairwise (fun p q => q.2 ≤ p.2) →
      (insertDesc x l).Pairwise (fun p q => q.2 ≤ p.2) := by
  intro l
  induction l with
  | nil => intro _; simp [insertDesc]
  | cons y ys ih =>
    intro hp
    simp only [insertDesc]
    by_cases hxy : x.2 < y.2
    · rw [if_pos hxy]
      rw [List.pairwise_cons]
      constructor
      · intro z hz
        rcases List.mem_cons.mp ((insertDesc_perm x ys).mem_iff.mp hz) with rfl | hmem
        · exact le_of_lt hxy
        · exact (List.pairwise_cons.mp hp).1 z hmem
      · exact ih (List.pairwise_cons.mp hp).2
    · rw [if_neg hxy]
      rw [List.pairwise_cons]
      constructor
      · intro z hz
        rcases List.mem_cons.mp hz with rfl | hmem
        · exact not_lt.mp hxy
        · exact le_trans ((List.pairwise_cons.mp hp).1 z hmem) (not_lt.mp hxy)
      · exact hp

theorem sortDescBy_perm : ∀ l : List (Text × Nat), (sortDescBy l).Perm l := by
  intro l
  induction l with
  | nil => exact List.Perm.refl _
  | cons x xs ih =>
    simp only [sortDescBy]
    exact (insertDesc_perm x (sortDescBy xs)).trans (List.Perm.cons x ih)

theorem sortDescBy_sorted :
    ∀ l : List (Text × Nat), (sortDescBy l).Pairwise (fun p q => q.2 ≤ p.2) := by
  intro l
  induction l with
  | nil => simp [sortDescBy]
  | cons x xs ih =>
    simp only [sortDescBy]
    exact insertDesc_sorted x (sortDescBy xs) ih

/-- Claim C4 (amended): the summary's `top_keywords` list is always
sorted by descending article count; when `by_keyword` is non-empty it
is the 20-element prefix (so at most 20 entries, not 10) of a
descending-sorted permutation of the keyword counts; when `by_keyword`
is empty it is the 10-element prefix of a descending-sorted permutation
of the source counts. -/
theorem c4_amended (g : Groups) :
    (topItems g).Pairwise (fun p q => q.2 ≤ p.2) ∧
    (g.by_keyword ≠ [] → (topItems g).length ≤ 20 ∧
      ∃ s : List (Text × Nat), s.Perm (axisCounts g.by_keyword) ∧
        s.Pairwise (fun p q => q.2 ≤ p.2) ∧ topItems g = s.take 20) ∧
    (g.by_keyword = [] → (topItems g).length ≤ 10 ∧
      ∃ s : List (Text × Nat), s.Perm (axisCounts g.by_source) ∧
        s.Pairwise (fun p q => q.2 ≤ p.2) ∧ topItems g = s.take 10) := by
  by_cases hbk : g.by_keyword = []
  · have hemp : g.by_keyword.isEmpty = true := List.isEmpty_iff.mpr hbk
    have htop : topItems g = (sortDescBy (axisCounts g.by_source)).take 10 := by
      simp [topItems, hemp]
    refine ⟨?_, fun h => absurd hbk h, fun _ => ⟨?_, ?_⟩⟩
    · rw [htop]
      exact List.Pairwise.sublist (List.take_sublist _ _) (sortDescBy_sorted _)
    · rw [htop]
      exact List.length_take_le _ _
    · exact ⟨sortDescBy (axisCounts g.by_source), sortDescBy_perm _,
        sortDescBy_sorted _, htop⟩
  · have hemp : g.by_keyword.isEmpty = false := List.isEmpty_eq_false.mpr hbk
    have htop : topItems g = (sortDescBy (axisCounts g.by_keyword)).take 20 := by
      simp [topItems, hemp]
    refine ⟨?_, fun _ => ⟨?_, ?_⟩, fun h => absurd h hbk⟩
    · rw [htop]
      exact List.Pairwise.sublist (List.take_sublist _ _) (sortDescBy_sorted _)
    · rw [htop]
      exact List.length_take_le _ _
    · exact ⟨sortDescBy (axisCounts g.by_keyword), sortDescBy_perm _,
        sortDescBy_sorted _, htop⟩

/-- An article carrying no data, used only to populate groups. -/
def dummyArt : Article :=
  { title := [], url := [], source := [], published := 0, description := [] }

/-- A grouping with eleven distinct keywords, one article each. -/
def gBig : Groups :=
  { by_keyword := [(['a'], [dummyArt]), (['b'], [dummyArt]), (['c'], [dummyArt]),
      (['d'], [dummyArt]), (['e'], [dummyArt]), (['f'], [dummyArt]), (['g'], [dummyArt]),
      (['h'], [dummyArt]), (['i'], [dummyArt]), (['j'], [dummyArt]), (['k'], [dummyArt])] }

/-- Claim C4 (counterexample): with eleven keywords in `by_keyword` the
summary's keyword ranking has eleven entries — the code truncates the
keyword ranking at 20 (`[:20]`), not at 10 as claimed. -/
theorem c4_counterexample :
    gBig.by_keyword ≠ [] ∧ 10 < (topItems gBig).length := by decide

/-- Witness for C4 (amended) at the concrete eleven-keyword grouping. -/
theorem c4_amended_witness :
    (topItems gBig).Pairwise (fun p q => q.2 ≤ p.2) ∧ (topItems gBig).length ≤ 20 :=
  ⟨(c4_amended gBig).1, ((c4_amended gBig).2.1 (by decide)).1⟩

end NewsAgg
